import Mathlib

/-!
Shallow embedding of the dedup + scoring pipeline of monitor.py
(apac-opportunity-monitor): text normalization, SHA-256 fingerprinting,
the seen ledger, the keyword scorer, the per-source fetch loop, and the
final ranking, together with theorems checking the claims of the specification.

Machine words are modelled as Nat reduced mod 2^32 where the arithmetic of the source wraps.  Strings are Lean Strings; Python byte strings are
List Nat.  External effects (the sqlite ledger, the wall clock, the
dateutil parser, the feed fetch) are modelled as explicit state / oracle
parameters, with the logic of the repository translated from the source.
-/

namespace OppMonitor

/-- Whitespace characters of the regex class \s (ASCII range), as used by
re.sub in normalize_text. -/
def isSpaceChar (c : Char) : Bool :=
  c = ' ' || c = '\t' || c = '\n' || c = '\r' || c = '\x0b' || c = '\x0c'

/-- re.sub of one-or-more whitespace by a single space: collapse every
maximal whitespace run to one ' '. -/
def collapseWs : List Char → List Char
  | [] => []
  | [c] => if isSpaceChar c then [' '] else [c]
  | c1 :: c2 :: rest =>
    if isSpaceChar c1 then
      if isSpaceChar c2 then collapseWs (c2 :: rest)
      else ' ' :: collapseWs (c2 :: rest)
    else c1 :: collapseWs (c2 :: rest)

/-- Python str.strip: drop whitespace at both ends. -/
def stripEnds (l : List Char) : List Char :=
  ((l.dropWhile isSpaceChar).reverse.dropWhile isSpaceChar).reverse

/-- Python str.lower restricted to the ASCII letters (the inputs of
interest are ASCII). -/
def lowerChar (c : Char) : Char :=
  if 65 ≤ c.toNat ∧ c.toNat ≤ 90 then Char.ofNat (c.toNat + 32) else c

/-- monitor.py normalize_text: collapse whitespace runs to one space,
strip both ends, lowercase. -/
def normalize_text (s : String) : String :=
  String.mk ((stripEnds (collapseWs s.data)).map lowerChar)

/-- Prefix test on character lists. -/
def isPrefixChars : List Char → List Char → Bool
  | [], _ => true
  | _ :: _, [] => false
  | a :: as, b :: bs => a = b && isPrefixChars as bs

/-- Contiguous-sublist test on character lists. -/
def subChars (n : List Char) : List Char → Bool
  | [] => n.isEmpty
  | c :: t => isPrefixChars n (c :: t) || subChars n t

/-- Python substring containment: the expression x in t on strings. -/
def inStr (needle hay : String) : Bool :=
  subChars needle.data hay.data

/-! ## SHA-256 over byte lists (hashlib.sha256), words as Nat mod 2^32 -/

def w32 : Nat := 4294967296

def sha256K : List Nat :=
  [1116352408, 1899447441, 3049323471, 3921009573, 961987163, 1508970993,
   2453635748, 2870763221, 3624381080, 310598401, 607225278, 1426881987,
   1925078388, 2162078206, 2614888103, 3248222580, 3835390401, 4022224774,
   264347078, 604807628, 770255983, 1249150122, 1555081692, 1996064986,
   2554220882, 2821834349, 2952996808, 3210313671, 3336571891, 3584528711,
   113926993, 338241895, 666307205, 773529912, 1294757372, 1396182291,
   1695183700, 1986661051, 2177026350, 2456956037, 2730485921, 2820302411,
   3259730800, 3345764771, 3516065817, 3600352804, 4094571909, 275423344,
   430227734, 506948616, 659060556, 883997877, 958139571, 1322822218,
   1537002063, 1747873779, 1955562222, 2024104815, 2227730452, 2361852424,
   2428436474, 2756734187, 3204031479, 3329325298]

def sha256H0 : List Nat :=
  [1779033703, 3144134277, 1013904242, 2773480762, 1359893119, 2600822924,
   528734635, 1541459225]

/-- Right rotation of a 32-bit word. -/
def rotr32 (n x : Nat) : Nat :=
  (x / 2 ^ n + x % 2 ^ n * 2 ^ (32 - n)) % w32

/-- Big-endian byte expansion of a number into k bytes. -/
def beBytes (k n : Nat) : List Nat :=
  (List.range k).map fun i => n / 2 ^ (8 * (k - 1 - i)) % 256

/-- SHA-256 message padding. -/
def padBytes (m : List Nat) : List Nat :=
  m ++ 128 :: List.replicate ((64 - (m.length + 9) % 64) % 64) 0 ++
    beBytes 8 (8 * m.length)

/-- Big-endian packing of bytes into 32-bit words. -/
def bytesToWords : List Nat → List Nat
  | a :: b :: c :: d :: rest =>
    (((a * 256 + b) * 256 + c) * 256 + d) :: bytesToWords rest
  | _ => []

/-- Split a word list into blocks of 16 words (the padded input is always
a multiple of 16 words). -/
def chunkWords : List Nat → List (List Nat)
  | w0 :: w1 :: w2 :: w3 :: w4 :: w5 :: w6 :: w7 ::
    w8 :: w9 :: w10 :: w11 :: w12 :: w13 :: w14 :: w15 :: rest =>
    [w0, w1, w2, w3, w4, w5, w6, w7, w8, w9, w10, w11, w12, w13, w14, w15] ::
      chunkWords rest
  | _ => []

/-- Extend the 16 message-schedule words to 64. -/
def schedExtend (w : List Nat) : List Nat :=
  (List.range 48).foldl
    (fun ws _ =>
      let i := ws.length
      let x15 := ws.getD (i - 15) 0
      let x2 := ws.getD (i - 2) 0
      let s0 := rotr32 7 x15 ^^^ rotr32 18 x15 ^^^ x15 / 2 ^ 3
      let s1 := rotr32 17 x2 ^^^ rotr32 19 x2 ^^^ x2 / 2 ^ 10
      ws ++ [(ws.getD (i - 16) 0 + s0 + ws.getD (i - 7) 0 + s1) % w32])
    w

/-- The eight working variables of the compression loop. -/
structure Hash8 where
  a : Nat
  b : Nat
  c : Nat
  d : Nat
  e : Nat
  f : Nat
  g : Nat
  h : Nat

/-- One SHA-256 compression round. -/
def compressRound (k wi : Nat) (s : Hash8) : Hash8 :=
  let bigS1 := rotr32 6 s.e ^^^ rotr32 11 s.e ^^^ rotr32 25 s.e
  let ch := (s.e &&& s.f) ^^^ ((w32 - 1 - s.e) &&& s.g)
  let t1 := (s.h + bigS1 + ch + k + wi) % w32
  let bigS0 := rotr32 2 s.a ^^^ rotr32 13 s.a ^^^ rotr32 22 s.a
  let mj := (s.a &&& s.b) ^^^ (s.a &&& s.c) ^^^ (s.b &&& s.c)
  let t2 := (bigS0 + mj) % w32
  ⟨(t1 + t2) % w32, s.a, s.b, s.c, (s.d + t1) % w32, s.e, s.f, s.g⟩

/-- Process one 512-bit block. -/
def compressBlock (h : List Nat) (blockW : List Nat) : List Nat :=
  let w := schedExtend blockW
  let st0 : Hash8 :=
    ⟨h.getD 0 0, h.getD 1 0, h.getD 2 0, h.getD 3 0,
     h.getD 4 0, h.getD 5 0, h.getD 6 0, h.getD 7 0⟩
  let s := (List.zip sha256K w).foldl (fun st kw => compressRound kw.1 kw.2 st) st0
  [(h.getD 0 0 + s.a) % w32, (h.getD 1 0 + s.b) % w32,
   (h.getD 2 0 + s.c) % w32, (h.getD 3 0 + s.d) % w32,
   (h.getD 4 0 + s.e) % w32, (h.getD 5 0 + s.f) % w32,
   (h.getD 6 0 + s.g) % w32, (h.getD 7 0 + s.h) % w32]

/-- SHA-256 digest of a byte list, as eight 32-bit words. -/
def sha256Words (m : List Nat) : List Nat :=
  (chunkWords (bytesToWords (padBytes m))).foldl compressBlock sha256H0

def hexDigit (n : Nat) : Char :=
  if n < 10 then Char.ofNat (48 + n) else Char.ofNat (87 + n)

def wordHex (x : Nat) : List Char :=
  (List.range 8).map fun i => hexDigit (x / 2 ^ (4 * (7 - i)) % 16)

/-- Lowercase hex digest string, as produced by hexdigest(). -/
def sha256Hex (m : List Nat) : String :=
  String.mk ((sha256Words m).map wordHex).flatten

/-- UTF-8 encoding of one character. -/
def utf8Encode (c : Char) : List Nat :=
  let n := c.toNat
  if n < 128 then [n]
  else if n < 2048 then [192 + n / 64, 128 + n % 64]
  else if n < 65536 then [224 + n / 4096, 128 + n / 64 % 64, 128 + n % 64]
  else [240 + n / 262144, 128 + n / 4096 % 64, 128 + n / 64 % 64, 128 + n % 64]

/-- String.encode("utf-8") as a byte list. -/
def strBytes (s : String) : List Nat :=
  (s.data.map utf8Encode).flatten

/-- The local base of item_id:
normalize_text(title) + "|" + normalize_text(link). -/
def item_base (title link : String) : String :=
  normalize_text title ++ "|" ++ normalize_text link

/-- monitor.py item_id: sha256 hex digest of the utf-8 encoded base. -/
def item_id (title link : String) : String :=
  sha256Hex (strBytes (item_base title link))

/-! ## Seen ledger (sqlite table seen), modelled as an insertion-ordered
row list; the wall clock enters as an explicit timestamp argument -/

abbrev Ledger := List (String × String)

/-- monitor.py already_seen: SELECT 1 FROM seen WHERE id = ?. -/
def already_seen (db : Ledger) (iid : String) : Bool :=
  db.any fun r => r.1 == iid

/-- monitor.py mark_seen: INSERT OR IGNORE INTO seen (id, first_seen_utc)
VALUES (iid, now). -/
def mark_seen (db : Ledger) (iid : String) (now : String) : Ledger :=
  if already_seen db iid then db else db ++ [(iid, now)]

/-! ## Config and scorer -/

/-- The keywords section of the YAML config.  Each tier key may be absent
from the dict; score_item reads them with dict.get and an empty default. -/
structure Keywords where
  exclude_any : Option (List String)
  must_have_any : Option (List String)
  nice_to_have_any : Option (List String)

/-- The email section (only the field the embedded code reads). -/
structure EmailCfg where
  max_items : Nat

/-- The loaded YAML config.  The keywords section may be absent, in which
case the subscript access in score_item raises KeyError. -/
structure Config where
  keywords : Option Keywords
  email : EmailCfg

/-- The built-in procurement bonus vocabulary of score_item. -/
def bonus_terms : List String :=
  ["rfp", "tender", "eoi", "expression of interest", "procurement", "bid",
   "request for proposal"]

/-- monitor.py score_item.  The KeyError raised on a config without the
keywords section is modelled with Except; missing tier keys default to
the empty list (dict.get). -/
def score_item (text : String) (cfg : Config) : Except String (Bool × Nat) :=
  match cfg.keywords with
  | none => Except.error "KeyError: keywords"
  | some kw =>
    let t := normalize_text text
    if (kw.exclude_any.getD []).any (fun x => inStr (normalize_text x) t) then
      Except.ok (false, 0)
    else
      let must := kw.must_have_any.getD []
      if !must.isEmpty && !(must.any fun x => inStr (normalize_text x) t) then
        Except.ok (false, 0)
      else
        let s1 := 60 + 5 * ((kw.nice_to_have_any.getD []).countP
          fun x => inStr (normalize_text x) t)
        let s2 := s1 + 5 * (bonus_terms.countP fun x => inStr x t)
        Except.ok (true, min s2 100)

/-! ## Raw entries and the per-source pipeline -/

/-- A raw feedparser entry: every field optional. -/
structure Entry where
  title : Option String
  link : Option String
  summary : Option String
  description : Option String
  published : Option String
  updated : Option String
  created : Option String
  deriving DecidableEq

/-- Python str.strip on a String. -/
def pyStrip (s : String) : String := String.mk (stripEnds s.data)

/-- Python falsy-or on strings: a or b. -/
def pyOr (a b : String) : String := if a = "" then b else a

/-- dateutil.parser.parse composed with .date().isoformat() is external
library code, modelled as an oracle: some date string on success, none
when the parse raises. -/
abbrev DateOracle := String → Option String

/-- One step of parse_date: a field absent or empty is skipped; a parse
failure falls through to the next field. -/
def tryField (oracle : DateOracle) (v : Option String) : Option String :=
  match v with
  | none => none
  | some s => if s = "" then none else oracle s

/-- monitor.py parse_date: try published, updated, created in order;
empty string when none parses. -/
def parse_date (oracle : DateOracle) (e : Entry) : String :=
  match tryField oracle e.published with
  | some d => d
  | none =>
    match tryField oracle e.updated with
    | some d => d
    | none =>
      match tryField oracle e.created with
      | some d => d
      | none => ""

/-- Index of the first '>' in a character list. -/
def idxGt : List Char → Option Nat
  | [] => none
  | c :: t => if c = '>' then some 0 else (idxGt t).map (· + 1)

/-- Match attempt of the regex <[^<]+?> just after a '<': the least k ≥ 1
with l[k] = '>' and no '<' among l[0..k), i.e. a shortest nonempty
'<'-free span closed by '>'. -/
def tagLen (l : List Char) : Option Nat :=
  match l with
  | [] => none
  | c0 :: t =>
    match idxGt t with
    | none => none
    | some j => if (c0 :: t.take j).contains '<' then none else some (j + 1)

/-- re.sub("<[^<]+?>", " ", s) on a character list: each leftmost
non-overlapping match becomes one space.  Fuel is the list length; every
step consumes at least one character. -/
def stripTagsGo : Nat → List Char → List Char
  | 0, l => l
  | _ + 1, [] => []
  | fuel + 1, c :: rest =>
    if c = '<' then
      match tagLen rest with
      | some k => ' ' :: stripTagsGo fuel (rest.drop (k + 1))
      | none => '<' :: stripTagsGo fuel rest
    else c :: stripTagsGo fuel rest

/-- The HTML-tag-stripping substitution applied to summaries. -/
def stripTags (s : String) : String :=
  String.mk (stripTagsGo s.data.length s.data)

/-- One configured source; the url only feeds the external fetch. -/
structure Source where
  name : String
  url : String
  tags : List String

/-- title = e.get("title", "").strip() -/
def entry_title (e : Entry) : String := pyStrip (e.title.getD "")

/-- link = e.get("link", "").strip() -/
def entry_link (e : Entry) : String := pyStrip (e.link.getD "")

/-- summary = (e.get("summary", "") or e.get("description", "") or "").strip() -/
def entry_summary (e : Entry) : String :=
  pyStrip (pyOr (pyOr (e.summary.getD "") (e.description.getD "")) "")

/-- The scoring blob: title + newline + summary. -/
def entry_blob (e : Entry) : String := entry_title e ++ "\n" ++ entry_summary e

/-- The fingerprint the loop computes for an entry: item_id(title, link). -/
def entry_iid (e : Entry) : String := item_id (entry_title e) (entry_link e)

/-- The digest item, as the dataclass Item. -/
structure Item where
  source : String
  title : String
  link : String
  published : String
  summary : String
  tags : List String
  score : Nat
  deriving DecidableEq

/-- The Item construction of fetch_rss_source: placeholder title when
empty, summary tag-stripped and truncated to 500 characters. -/
def mk_item (src : Source) (oracle : DateOracle) (e : Entry) (score : Nat) : Item :=
  ⟨src.name,
   pyOr (entry_title e) "(no title)",
   entry_link e,
   parse_date oracle e,
   String.mk ((stripTags (entry_summary e)).data.take 500),
   src.tags,
   score⟩

/-- The entry loop of fetch_rss_source: score, skip irrelevant, skip
already-seen, otherwise append the item and mark the ledger. -/
def fetch_go (src : Source) (cfg : Config) (oracle : DateOracle) (now : String) :
    List Entry → List Item → Ledger → Except String (List Item × Ledger)
  | [], acc, db => Except.ok (acc, db)
  | e :: rest, acc, db =>
    match score_item (entry_blob e) cfg with
    | Except.error m => Except.error m
    | Except.ok (keep, score) =>
      if keep then
        if already_seen db (entry_iid e) then fetch_go src cfg oracle now rest acc db
        else
          fetch_go src cfg oracle now rest (acc ++ [mk_item src oracle e score])
            (mark_seen db (entry_iid e) now)
      else fetch_go src cfg oracle now rest acc db

/-- monitor.py fetch_rss_source.  The feed fetch itself is the external
collaborator, so the raw entries are a parameter; d.entries[:200] bounds
the work per source. -/
def fetch_rss_source (src : Source) (entries : List Entry) (cfg : Config)
    (oracle : DateOracle) (now : String) (db : Ledger) :
    Except String (List Item × Ledger) :=
  fetch_go src cfg oracle now (entries.take 200) [] db

/-! ## Final ranking (build_email_html line 141) -/

/-- Python string comparison: lexicographic by code point. -/
def chars_lt : List Char → List Char → Bool
  | [], [] => false
  | [], _ :: _ => true
  | _ :: _, [] => false
  | a :: as, b :: bs =>
    decide (a.toNat < b.toNat) || (decide (a.toNat = b.toNat) && chars_lt as bs)

/-- Python tuple comparison on the sort key (score, published). -/
def key_lt (k1 k2 : Nat × String) : Bool :=
  decide (k1.1 < k2.1) || (decide (k1.1 = k2.1) && chars_lt k1.2.data k2.2.data)

/-- The Python sort key lambda x: (x.score, x.published). -/
def item_key (x : Item) : Nat × String := (x.score, x.published)

/-- a may precede b in the stable descending sort: key a is not below
key b. -/
def item_before (a b : Item) : Prop :=
  key_lt (item_key a) (item_key b) = false

instance : DecidableRel item_before := fun a b => by
  unfold item_before; infer_instance

/-- sorted(items, key=lambda x: (x.score, x.published), reverse=True)
followed by [:max_items].  the Python sorted builtin is stable, and a stable
descending insertion sort computes the same list. -/
def items_sorted (items : List Item) (cfg : Config) : List Item :=
  (List.insertionSort item_before items).take cfg.email.max_items

/-! ## Order lemmas for the ranking comparison -/

theorem char_toNat_inj {a b : Char} (h : a.toNat = b.toNat) : a = b := by
  have ha := Char.ofNat_toNat a
  rw [← ha, h, Char.ofNat_toNat]

theorem chars_lt_asymm : ∀ {a b : List Char},
    chars_lt a b = true → chars_lt b a = false
  | [], [] => by simp [chars_lt]
  | [], _ :: _ => by simp [chars_lt]
  | _ :: _, [] => by simp [chars_lt]
  | a :: as, b :: bs => by
    simp only [chars_lt, Bool.or_eq_true, Bool.and_eq_true, decide_eq_true_eq]
    rintro (h | ⟨he, hr⟩) <;>
      simp only [chars_lt, Bool.or_eq_false_iff, Bool.and_eq_false_iff,
        decide_eq_false_iff_not]
    · exact ⟨by omega, Or.inl (by omega)⟩
    · exact ⟨by omega, Or.inr (by simp [chars_lt_asymm hr])⟩

theorem chars_lt_trans : ∀ {a b c : List Char},
    chars_lt a b = true → chars_lt b c = true → chars_lt a c = true
  | [], [], _ => by simp [chars_lt]
  | [], _ :: _, [] => by simp [chars_lt]
  | [], _ :: _, _ :: _ => by simp [chars_lt]
  | _ :: _, [], _ => by simp [chars_lt]
  | _ :: _, _ :: _, [] => by simp [chars_lt]
  | a :: as, b :: bs, c :: cs => by
    simp only [chars_lt, Bool.or_eq_true, Bool.and_eq_true, decide_eq_true_eq]
    rintro (h1 | ⟨he1, hr1⟩) (h2 | ⟨he2, hr2⟩)
    · exact Or.inl (by omega)
    · exact Or.inl (by omega)
    · exact Or.inl (by omega)
    · exact Or.inr ⟨by omega, chars_lt_trans hr1 hr2⟩

theorem chars_lt_tri : ∀ {a b : List Char},
    chars_lt a b = false → a = b ∨ chars_lt b a = true
  | [], [] => fun _ => Or.inl rfl
  | [], _ :: _ => by simp [chars_lt]
  | _ :: _, [] => by simp [chars_lt]
  | a :: as, b :: bs => by
    simp only [chars_lt, Bool.or_eq_false_iff, Bool.and_eq_false_iff,
      decide_eq_false_iff_not, Bool.or_eq_true, Bool.and_eq_true,
      decide_eq_true_eq]
    rintro ⟨hlt, he | hr⟩
    · exact Or.inr (Or.inl (by omega))
    · by_cases heq : a.toNat = b.toNat
      · rcases chars_lt_tri hr with h | h
        · exact Or.inl (by rw [char_toNat_inj heq, h])
        · exact Or.inr (Or.inr ⟨by omega, h⟩)
      · exact Or.inr (Or.inl (by omega))

theorem string_data_inj {s t : String} (h : s.data = t.data) : s = t := by
  cases s; cases t; exact congrArg String.mk h

theorem key_lt_asymm {k1 k2 : Nat × String} (h : key_lt k1 k2 = true) :
    key_lt k2 k1 = false := by
  simp only [key_lt, Bool.or_eq_true, Bool.and_eq_true, decide_eq_true_eq] at h
  simp only [key_lt, Bool.or_eq_false_iff, Bool.and_eq_false_iff,
    decide_eq_false_iff_not]
  rcases h with h | ⟨he, hr⟩
  · exact ⟨by omega, Or.inl (by omega)⟩
  · exact ⟨by omega, Or.inr (by simp [chars_lt_asymm hr])⟩

theorem key_lt_trans {k1 k2 k3 : Nat × String} (h1 : key_lt k1 k2 = true)
    (h2 : key_lt k2 k3 = true) : key_lt k1 k3 = true := by
  simp only [key_lt, Bool.or_eq_true, Bool.and_eq_true, decide_eq_true_eq] at *
  rcases h1 with h1 | ⟨he1, hr1⟩ <;> rcases h2 with h2 | ⟨he2, hr2⟩
  · exact Or.inl (by omega)
  · exact Or.inl (by omega)
  · exact Or.inl (by omega)
  · exact Or.inr ⟨by omega, chars_lt_trans hr1 hr2⟩

theorem key_lt_tri {k1 k2 : Nat × String} (h : key_lt k1 k2 = false) :
    k1 = k2 ∨ key_lt k2 k1 = true := by
  simp only [key_lt, Bool.or_eq_false_iff, Bool.and_eq_false_iff,
    decide_eq_false_iff_not] at h
  rcases h with ⟨hlt, he | hr⟩
  · right
    simp only [key_lt, Bool.or_eq_true, decide_eq_true_eq]
    exact Or.inl (by omega)
  · by_cases heq : k1.1 = k2.1
    · rcases chars_lt_tri hr with h | h
      · left
        exact Prod.ext heq (string_data_inj h)
      · right
        simp only [key_lt, Bool.or_eq_true, Bool.and_eq_true, decide_eq_true_eq]
        exact Or.inr ⟨by omega, h⟩
    · right
      simp only [key_lt, Bool.or_eq_true, decide_eq_true_eq]
      exact Or.inl (by omega)

instance : IsTotal Item item_before := by
  constructor
  intro a b
  unfold item_before
  cases h : key_lt (item_key a) (item_key b)
  · exact Or.inl rfl
  · exact Or.inr (key_lt_asymm h)

instance : IsTrans Item item_before := by
  constructor
  intro a b c h1 h2
  unfold item_before at *
  cases h : key_lt (item_key a) (item_key c)
  · rfl
  · exfalso
    rcases key_lt_tri h1 with he | hgt
    · rw [← he] at h2
      rw [h2] at h
      exact Bool.false_ne_true h
    · have := key_lt_trans hgt h
      rw [h2] at this
      exact Bool.false_ne_true this

/-! ## Ledger lemmas -/

theorem already_seen_mark (db : Ledger) (j now i : String)
    (h : already_seen db i = true) :
    already_seen (mark_seen db j now) i = true := by
  unfold mark_seen
  split
  · exact h
  · unfold already_seen at *
    simp only [List.any_append, Bool.or_eq_true]
    exact Or.inl h

theorem not_seen_of_not_seen_mark (db : Ledger) (j now i : String)
    (h : already_seen (mark_seen db j now) i = false) :
    already_seen db i = false := by
  cases hd : already_seen db i
  · rfl
  · rw [already_seen_mark db j now i hd] at h
    exact absurd h (by simp)

theorem already_seen_mark_self (db : Ledger) (j now : String) :
    already_seen (mark_seen db j now) j = true := by
  unfold mark_seen
  split
  · assumption
  · unfold already_seen
    simp

theorem mark_seen_of_seen (db : Ledger) (i now : String)
    (h : already_seen db i = true) : mark_seen db i now = db := by
  simp [mark_seen, h]

/-! ## Fetch-loop lemmas -/

theorem fetch_go_mono (src : Source) (cfg : Config) (oracle : DateOracle)
    (now : String) :
    ∀ (l : List Entry) (acc : List Item) (db : Ledger)
      (res : List Item × Ledger),
      fetch_go src cfg oracle now l acc db = Except.ok res →
      ∀ i, already_seen db i = true → already_seen res.2 i = true := by
  intro l
  induction l with
  | nil =>
    intro acc db res h i hi
    simp only [fetch_go] at h
    cases h
    exact hi
  | cons e rest ih =>
    intro acc db res h i hi
    simp only [fetch_go] at h
    split at h
    · exact absurd h (by simp)
    · rename_i keep sc heq
      split at h
      · split at h
        · exact ih acc db res h i hi
        · exact ih _ _ res h i (already_seen_mark db (entry_iid e) now i hi)
      · exact ih acc db res h i hi

theorem fetch_go_scores_ok (src : Source) (cfg : Config) (oracle : DateOracle)
    (now : String) :
    ∀ (l : List Entry) (acc : List Item) (db : Ledger)
      (res : List Item × Ledger),
      fetch_go src cfg oracle now l acc db = Except.ok res →
      ∀ e ∈ l, ∃ ks, score_item (entry_blob e) cfg = Except.ok ks := by
  intro l
  induction l with
  | nil =>
    intro acc db res _ e he
    exact absurd he (by simp)
  | cons e0 rest ih =>
    intro acc db res h e he
    simp only [fetch_go] at h
    split at h
    · exact absurd h (by simp)
    · rename_i keep sc heq
      rcases List.mem_cons.mp he with rfl | hmem
      · exact ⟨(keep, sc), heq⟩
      · split at h
        · split at h
          · exact ih acc db res h e hmem
          · exact ih _ _ res h e hmem
        · exact ih acc db res h e hmem

theorem fetch_go_marks (src : Source) (cfg : Config) (oracle : DateOracle)
    (now : String) :
    ∀ (l : List Entry) (acc : List Item) (db : Ledger)
      (res : List Item × Ledger),
      fetch_go src cfg oracle now l acc db = Except.ok res →
      ∀ e ∈ l, ∀ sc, score_item (entry_blob e) cfg = Except.ok (true, sc) →
        already_seen res.2 (entry_iid e) = true := by
  intro l
  induction l with
  | nil =>
    intro acc db res _ e he
    exact absurd he (by simp)
  | cons e0 rest ih =>
    intro acc db res h e he sc hsc
    simp only [fetch_go] at h
    split at h
    · exact absurd h (by simp)
    · rename_i keep sc0 heq
      rcases List.mem_cons.mp he with rfl | hmem
      · split at h
        · split at h
          · rename_i hseen
            exact fetch_go_mono src cfg oracle now rest acc db res h _ hseen
          · exact fetch_go_mono src cfg oracle now rest _ _ res h _
              (already_seen_mark_self db (entry_iid e) now)
        · rename_i hkeep
          rw [hsc] at heq
          cases heq
          exact absurd rfl hkeep
      · split at h
        · split at h
          · exact ih acc db res h e hmem sc hsc
          · exact ih _ _ res h e hmem sc hsc
        · exact ih acc db res h e hmem sc hsc

theorem fetch_go_skip (src : Source) (cfg : Config) (oracle : DateOracle)
    (now : String) :
    ∀ (l : List Entry) (acc : List Item) (db : Ledger),
      (∀ e ∈ l, ∃ ks, score_item (entry_blob e) cfg = Except.ok ks ∧
        (ks.1 = false ∨ already_seen db (entry_iid e) = true)) →
      fetch_go src cfg oracle now l acc db = Except.ok (acc, db) := by
  intro l
  induction l with
  | nil =>
    intro acc db _
    simp [fetch_go]
  | cons e0 rest ih =>
    intro acc db hall
    obtain ⟨ks, hok, hskip⟩ := hall e0 (List.mem_cons_self e0 rest)
    obtain ⟨keep, sc⟩ := ks
    simp only [fetch_go, hok]
    rcases hskip with hk | hseen
    · have hk' : keep = false := hk
      rw [hk', if_neg Bool.false_ne_true]
      exact ih acc db fun e he => hall e (List.mem_cons_of_mem e0 he)
    · have hseen' : already_seen db (entry_iid e0) = true := hseen
      cases keep
      · rw [if_neg Bool.false_ne_true]
        exact ih acc db fun e he => hall e (List.mem_cons_of_mem e0 he)
      · rw [if_pos rfl, hseen', if_pos rfl]
        exact ih acc db fun e he => hall e (List.mem_cons_of_mem e0 he)

theorem fetch_go_items_from (src : Source) (cfg : Config) (oracle : DateOracle)
    (now : String) :
    ∀ (l : List Entry) (acc : List Item) (db : Ledger)
      (res : List Item × Ledger),
      fetch_go src cfg oracle now l acc db = Except.ok res →
      ∀ it ∈ res.1, it ∈ acc ∨ ∃ e ∈ l, ∃ sc,
        it = mk_item src oracle e sc ∧
        already_seen db (entry_iid e) = false ∧
        score_item (entry_blob e) cfg = Except.ok (true, sc) := by
  intro l
  induction l with
  | nil =>
    intro acc db res h it hit
    simp only [fetch_go] at h
    cases h
    exact Or.inl hit
  | cons e0 rest ih =>
    intro acc db res h it hit
    simp only [fetch_go] at h
    split at h
    · exact absurd h (by simp)
    · rename_i keep sc0 heq
      split at h
      · rename_i hkeep
        split at h
        · rcases ih acc db res h it hit with hin | ⟨e, he, sc, heq2, hns, hsc⟩
          · exact Or.inl hin
          · exact Or.inr ⟨e, List.mem_cons_of_mem e0 he, sc, heq2, hns, hsc⟩
        · rename_i hns0
          rcases ih _ _ res h it hit with hin | ⟨e, he, sc, heq2, hns, hsc⟩
          · rcases List.mem_append.mp hin with hin' | hone
            · exact Or.inl hin'
            · refine Or.inr ⟨e0, List.mem_cons_self e0 rest, sc0,
                List.mem_singleton.mp hone, ?_, ?_⟩
              · simp only [Bool.not_eq_true] at hns0
                exact hns0
              · rw [heq]
                rw [hkeep]
          · exact Or.inr ⟨e, List.mem_cons_of_mem e0 he, sc, heq2,
              not_seen_of_not_seen_mark db (entry_iid e0) now (entry_iid e) hns,
              hsc⟩
      · rcases ih acc db res h it hit with hin | ⟨e, he, sc, heq2, hns, hsc⟩
        · exact Or.inl hin
        · exact Or.inr ⟨e, List.mem_cons_of_mem e0 he, sc, heq2, hns, hsc⟩

/-! ## Normalization lemmas -/

theorem toNat_ofNat_valid {n : Nat} (h : n < 55296) : (Char.ofNat n).toNat = n := by
  unfold Char.ofNat
  rw [dif_pos (Or.inl h)]
  simp [Char.ofNatAux, Char.toNat, UInt32.toNat, UInt32.ofNatCore]

/-- Uppercasing of the ASCII letters; used only to state that a pure
letter-case change does not affect normalization. -/
def upperChar (c : Char) : Char :=
  if 97 ≤ c.toNat ∧ c.toNat ≤ 122 then Char.ofNat (c.toNat - 32) else c

theorem isSpaceChar_toNat {c : Char} (h : isSpaceChar c = true) :
    c.toNat = 32 ∨ c.toNat = 9 ∨ c.toNat = 10 ∨
      c.toNat = 13 ∨ c.toNat = 11 ∨ c.toNat = 12 := by
  simp only [isSpaceChar, Bool.or_eq_true, decide_eq_true_eq] at h
  rcases h with ((((rfl | rfl) | rfl) | rfl) | rfl) | rfl <;> simp

theorem isSpaceChar_false_of_ge {c : Char} (h : 33 ≤ c.toNat) :
    isSpaceChar c = false := by
  cases hs : isSpaceChar c
  · rfl
  · rcases isSpaceChar_toNat hs with h' | h' | h' | h' | h' | h' <;> omega

theorem upperChar_space : upperChar ' ' = ' ' := by decide

theorem isSpaceChar_upper (c : Char) : isSpaceChar (upperChar c) = isSpaceChar c := by
  unfold upperChar
  split
  · rename_i hr
    have ht : (Char.ofNat (c.toNat - 32)).toNat = c.toNat - 32 :=
      toNat_ofNat_valid (by omega)
    rw [isSpaceChar_false_of_ge (by omega), isSpaceChar_false_of_ge (by omega)]
  · rfl

theorem lowerChar_upper (c : Char) : lowerChar (upperChar c) = lowerChar c := by
  unfold upperChar
  split
  · rename_i hr
    have ht : (Char.ofNat (c.toNat - 32)).toNat = c.toNat - 32 :=
      toNat_ofNat_valid (by omega)
    unfold lowerChar
    rw [ht, if_pos (by omega), if_neg (by omega)]
    have harg : c.toNat - 32 + 32 = c.toNat := by omega
    rw [harg, Char.ofNat_toNat]
  · rfl

theorem collapseWs_map_upper : ∀ l : List Char,
    collapseWs (l.map upperChar) = (collapseWs l).map upperChar
  | [] => by simp [collapseWs]
  | [c] => by
    simp only [List.map_cons, List.map_nil, collapseWs, isSpaceChar_upper]
    by_cases h : isSpaceChar c = true <;> simp [h, upperChar_space]
  | c1 :: c2 :: rest => by
    have ih := collapseWs_map_upper (c2 :: rest)
    simp only [List.map_cons] at ih ⊢
    simp only [collapseWs, isSpaceChar_upper]
    by_cases h1 : isSpaceChar c1 = true <;> by_cases h2 : isSpaceChar c2 = true <;>
      simp [h1, h2, ih, upperChar_space]

theorem stripEnds_map_upper (l : List Char) :
    stripEnds (l.map upperChar) = (stripEnds l).map upperChar := by
  have hp : (isSpaceChar ∘ upperChar) = isSpaceChar := funext isSpaceChar_upper
  unfold stripEnds
  rw [List.dropWhile_map, hp, ← List.map_reverse, List.dropWhile_map, hp,
    ← List.map_reverse]

theorem normalize_text_upper (s : String) :
    normalize_text (String.mk (s.data.map upperChar)) = normalize_text s := by
  unfold normalize_text
  have hdata : (String.mk (s.data.map upperChar)).data = s.data.map upperChar := rfl
  rw [hdata, collapseWs_map_upper, stripEnds_map_upper, List.map_map,
    (funext lowerChar_upper : lowerChar ∘ upperChar = lowerChar)]

theorem collapseWs_dup_space : ∀ (pre post : List Char),
    collapseWs (pre ++ ' ' :: ' ' :: post) = collapseWs (pre ++ ' ' :: post)
  | [], post => by
    have hs : isSpaceChar ' ' = true := rfl
    simp [collapseWs, hs]
  | [c], post => by
    have ih := collapseWs_dup_space [] post
    have hs : isSpaceChar ' ' = true := rfl
    simp only [List.nil_append] at ih
    by_cases hc : isSpaceChar c = true <;>
      simp [collapseWs, hc, hs, ih, List.cons_append]
  | c1 :: c2 :: pre', post => by
    have ih := collapseWs_dup_space (c2 :: pre') post
    simp only [List.cons_append] at ih ⊢
    by_cases h1 : isSpaceChar c1 = true <;> by_cases h2 : isSpaceChar c2 = true <;>
      simp [collapseWs, h1, h2, ih]

theorem normalize_dup_space (pre post : List Char) :
    normalize_text (String.mk (pre ++ ' ' :: ' ' :: post)) =
      normalize_text (String.mk (pre ++ ' ' :: post)) := by
  unfold normalize_text
  have h1 : (String.mk (pre ++ ' ' :: ' ' :: post)).data = pre ++ ' ' :: ' ' :: post := rfl
  have h2 : (String.mk (pre ++ ' ' :: post)).data = pre ++ ' ' :: post := rfl
  rw [h1, h2, collapseWs_dup_space]

theorem mem_collapseWs : ∀ {l : List Char} {c : Char},
    c ∈ collapseWs l → c = ' ' ∨ c ∈ l
  | [], c => by simp [collapseWs]
  | [d], c => by
    simp only [collapseWs]
    by_cases hd : isSpaceChar d = true <;> simp [hd] <;> intro h <;> simp [h]
  | d1 :: d2 :: rest, c => by
    intro h
    simp only [collapseWs] at h
    by_cases h1 : isSpaceChar d1 = true
    · by_cases h2 : isSpaceChar d2 = true
      · rw [if_pos h1, if_pos h2] at h
        rcases mem_collapseWs h with h' | h'
        · exact Or.inl h'
        · exact Or.inr (List.mem_cons_of_mem d1 h')
      · rw [if_pos h1, if_neg (by simp [h2])] at h
        rcases List.mem_cons.mp h with rfl | h'
        · exact Or.inl rfl
        · rcases mem_collapseWs h' with h'' | h''
          · exact Or.inl h''
          · exact Or.inr (List.mem_cons_of_mem d1 h'')
    · rw [if_neg (by simp [h1])] at h
      rcases List.mem_cons.mp h with rfl | h'
      · exact Or.inr (List.mem_cons_self c (d2 :: rest))
      · rcases mem_collapseWs h' with h'' | h''
        · exact Or.inl h''
        · exact Or.inr (List.mem_cons_of_mem d1 h'')

theorem mem_stripEnds {l : List Char} {c : Char} (h : c ∈ stripEnds l) :
    c ∈ l := by
  unfold stripEnds at h
  have h1 := List.mem_reverse.mp h
  have h2 := (List.dropWhile_sublist isSpaceChar).subset h1
  have h3 := List.mem_reverse.mp h2
  exact (List.dropWhile_sublist isSpaceChar).subset h3

theorem lowerChar_pipe {c : Char} (h : lowerChar c = '|') : c = '|' := by
  unfold lowerChar at h
  split at h
  · rename_i hr
    have := congrArg Char.toNat h
    rw [toNat_ofNat_valid (by omega)] at this
    have hp : Char.toNat '|' = 124 := rfl
    rw [hp] at this
    omega
  · exact h

theorem normalize_no_pipe {s : String} (h : '|' ∉ s.data) :
    '|' ∉ (normalize_text s).data := by
  intro hmem
  unfold normalize_text at hmem
  have hdata : (String.mk ((stripEnds (collapseWs s.data)).map lowerChar)).data =
      (stripEnds (collapseWs s.data)).map lowerChar := rfl
  rw [hdata] at hmem
  obtain ⟨c, hc, hlc⟩ := List.mem_map.mp hmem
  have hcp : c = '|' := lowerChar_pipe hlc
  subst hcp
  rcases mem_collapseWs (mem_stripEnds hc) with h' | h'
  · exact absurd h' (by decide)
  · exact h h'

theorem sep_inj : ∀ (a b c d : List Char), '|' ∉ a → '|' ∉ b →
    a ++ '|' :: c = b ++ '|' :: d → a = b ∧ c = d
  | [], [], c, d => fun _ _ h => by
    simp only [List.nil_append, List.cons.injEq] at h
    exact ⟨rfl, h.2⟩
  | [], y :: b', c, d => fun _ hb h => by
    simp only [List.nil_append, List.cons_append, List.cons.injEq] at h
    exact absurd (h.1 ▸ List.mem_cons_self y b') hb
  | x :: a', [], c, d => fun ha _ h => by
    simp only [List.nil_append, List.cons_append, List.cons.injEq] at h
    exact absurd (h.1 ▸ List.mem_cons_self x a') ha
  | x :: a', y :: b', c, d => fun ha hb h => by
    simp only [List.cons_append, List.cons.injEq] at h
    obtain ⟨hxy, ht⟩ := h
    have hrec := sep_inj a' b' c d (fun hm => ha (List.mem_cons_of_mem x hm))
      (fun hm => hb (List.mem_cons_of_mem y hm)) ht
    exact ⟨by rw [hxy, hrec.1], hrec.2⟩

/-! ## Repeated marking (for the ledger idempotence claim) -/

/-- Fold of mark_seen over a list of call timestamps. -/
def apply_marks (db : Ledger) (iid : String) : List String → Ledger
  | [] => db
  | t :: ts => apply_marks (mark_seen db iid t) iid ts

theorem apply_marks_of_seen (iid : String) : ∀ (ts : List String) (db : Ledger),
    already_seen db iid = true → apply_marks db iid ts = db
  | [], _ => fun _ => rfl
  | t :: ts, db => fun h => by
    simp only [apply_marks, mark_seen_of_seen db iid t h]
    exact apply_marks_of_seen iid ts db h

theorem filter_eq_nil_of_not_seen {db : Ledger} {iid : String}
    (h : already_seen db iid = false) :
    db.filter (fun r => r.1 == iid) = [] := by
  unfold already_seen at h
  induction db with
  | nil => rfl
  | cons r rest ih =>
    simp only [List.any_cons, Bool.or_eq_false_iff] at h
    simp [List.filter_cons, h.1, ih h.2]

/-! ## Concrete pipeline example (two relevant entries, max_items = 1) -/

def exSrc : Source := ⟨"feedx", "http://u", ["tag"]⟩

def exCfg : Config := ⟨some ⟨some [], some ["tender"], some []⟩, ⟨1⟩⟩

def exOracle : DateOracle := fun _ => none

def exE1 : Entry :=
  ⟨some "Tender One", some "http://a/1", some "open tender", none, none, none, none⟩

def exE2 : Entry :=
  ⟨some "Tender Two", some "http://a/2", some "second tender", none, none, none, none⟩

/-- An edit of exE1: same title and link, different summary. -/
def exE1edit : Entry :=
  ⟨some "Tender One", some "http://a/1", some "EDITED tender text", none, none, none, none⟩

def exRun1 : Except String (List Item × Ledger) :=
  fetch_rss_source exSrc [exE1, exE2] exCfg exOracle "t0" []

def exOut : List Item × Ledger := exRun1.toOption.getD ([], [])

/-! ## Claims -/

/-- C2: mark_seen is idempotent: marking a fresh fingerprint once and then
any number of further times leaves exactly one record for it, carrying the
timestamp of the first call; a call on an already-present fingerprint is a
no-op, not an error, and never overwrites the stored timestamp. -/
theorem C2_mark_seen_idempotent :
    (∀ (db : Ledger) (iid t : String) (ts : List String),
      already_seen db iid = false →
      (apply_marks db iid (t :: ts)).filter (fun r => r.1 == iid) = [(iid, t)])
    ∧ (∀ (db : Ledger) (iid t : String),
      already_seen db iid = true → mark_seen db iid t = db) := by
  constructor
  · intro db iid t ts h
    have hmark : mark_seen db iid t = db ++ [(iid, t)] := by
      simp [mark_seen, h]
    have hseen : already_seen (db ++ [(iid, t)]) iid = true := by
      unfold already_seen
      simp
    simp only [apply_marks, hmark]
    rw [apply_marks_of_seen iid ts _ hseen, List.filter_append,
      filter_eq_nil_of_not_seen h]
    simp
  · exact fun db iid t h => mark_seen_of_seen db iid t h

/-- Witness for C2 at concrete inputs: three calls on a ledger that does
not contain the id leave one record with the first timestamp, and a call
on a present id changes nothing. -/
theorem C2_witness :
    (apply_marks [("other", "t9")] "id1" ["t1", "t2", "t3"]).filter
        (fun r => r.1 == "id1") = [("id1", "t1")]
    ∧ mark_seen [("id1", "t1")] "id1" "t7" = [("id1", "t1")] :=
  ⟨C2_mark_seen_idempotent.1 [("other", "t9")] "id1" "t1" ["t2", "t3"] (by decide),
   C2_mark_seen_idempotent.2 [("id1", "t1")] "id1" "t7" (by decide)⟩

/-- C4: the scorer gates in strict order: an exclude_any hit forces
(false, 0) whatever the other tiers say, and with no exclude hit a
non-empty must_have_any with no hit also forces (false, 0). -/
theorem C4_scorer_gating :
    ∀ (text : String) (kw : Keywords) (em : EmailCfg),
      ((kw.exclude_any.getD []).any
          (fun x => inStr (normalize_text x) (normalize_text text)) = true →
        score_item text ⟨some kw, em⟩ = Except.ok (false, 0))
      ∧ ((kw.exclude_any.getD []).any
          (fun x => inStr (normalize_text x) (normalize_text text)) = false →
        kw.must_have_any.getD [] ≠ [] →
        (∀ x ∈ kw.must_have_any.getD [],
          inStr (normalize_text x) (normalize_text text) = false) →
        score_item text ⟨some kw, em⟩ = Except.ok (false, 0)) := by
  intro text kw em
  constructor
  · intro hex
    simp [score_item, hex]
  · intro hex hne hnone
    have hmust : (kw.must_have_any.getD []).any
        (fun x => inStr (normalize_text x) (normalize_text text)) = false := by
      simp only [List.any_eq_false]
      intro x hx
      simp [hnone x hx]
    have hempty : (kw.must_have_any.getD []).isEmpty = false := by
      cases hm : kw.must_have_any.getD [] with
      | nil => exact absurd hm hne
      | cons a l => rfl
    simp [score_item, hex, hmust, hempty]

/-- Witness for C4: exclusion dominates a must-have hit, and a missed
must-have gate rejects. -/
theorem C4_witness :
    score_item "RFP cancelled"
        ⟨some ⟨some ["cancelled"], some ["rfp"], some []⟩, ⟨5⟩⟩ =
      Except.ok (false, 0)
    ∧ score_item "general news"
        ⟨some ⟨some [], some ["tender"], some []⟩, ⟨5⟩⟩ =
      Except.ok (false, 0) :=
  ⟨(C4_scorer_gating "RFP cancelled" ⟨some ["cancelled"], some ["rfp"], some []⟩
      ⟨5⟩).1 (by decide),
   (C4_scorer_gating "general news" ⟨some [], some ["tender"], some []⟩ ⟨5⟩).2
      (by decide) (by decide) (by decide)⟩

/-- C5: every relevant score is 60 plus 5 per nice_to_have_any phrase
contained in the normalized text plus 5 per built-in bonus term contained,
clamped at 100, hence always in [60, 100]; the example of the spec scores
exactly 75. -/
theorem C5_score_accumulation :
    (∀ (text : String) (cfg : Config) (s : Nat),
      score_item text cfg = Except.ok (true, s) →
      ∃ kw, cfg.keywords = some kw ∧
        s = min (60 + 5 * ((kw.nice_to_have_any.getD []).countP
              (fun x => inStr (normalize_text x) (normalize_text text)))
            + 5 * (bonus_terms.countP
              (fun x => inStr x (normalize_text text)))) 100
        ∧ 60 ≤ s ∧ s ≤ 100)
    ∧ score_item "rfp for cloud security"
        ⟨some ⟨some [], some [], some ["cloud", "security"]⟩, ⟨5⟩⟩ =
      Except.ok (true, 75) := by
  constructor
  · intro text cfg s h
    cases hc : cfg.keywords with
    | none =>
      simp only [score_item, hc] at h
      exact absurd h (by simp)
    | some kw =>
      simp only [score_item, hc] at h
      refine ⟨kw, rfl, ?_⟩
      split at h
      · exact absurd h (by simp)
      · split at h
        · exact absurd h (by simp)
        · simp only [Except.ok.injEq, Prod.mk.injEq, true_and] at h
          subst h
          refine ⟨rfl, ?_, ?_⟩ <;> omega
  · rfl

/-- Witness for C5, applying the characterization to the 75-point
example. -/
theorem C5_witness :
    ∃ kw, (Config.mk (some ⟨some [], some [], some ["cloud", "security"]⟩)
        ⟨5⟩).keywords = some kw ∧
      75 = min (60 + 5 * ((kw.nice_to_have_any.getD []).countP
            (fun x => inStr (normalize_text x)
              (normalize_text "rfp for cloud security")))
          + 5 * (bonus_terms.countP
            (fun x => inStr x (normalize_text "rfp for cloud security")))) 100
      ∧ 60 ≤ 75 ∧ 75 ≤ 100 :=
  C5_score_accumulation.1 "rfp for cloud security"
    ⟨some ⟨some [], some [], some ["cloud", "security"]⟩, ⟨5⟩⟩ 75
    C5_score_accumulation.2

/-- C6: the digest is the accumulated items stably sorted by the key
(score, published), both components descending, then truncated to
max_items; the three-item example of the spec sorts as claimed. -/
theorem C6_ranking :
    (∀ (items : List Item) (cfg : Config),
      items_sorted items cfg =
        (List.insertionSort item_before items).take cfg.email.max_items
      ∧ (List.insertionSort item_before items).Perm items
      ∧ List.Sorted item_before (List.insertionSort item_before items))
    ∧ items_sorted
        [⟨"s", "a", "l", "2024-01-01", "", [], 80⟩,
         ⟨"s", "b", "l", "2024-01-01", "", [], 95⟩,
         ⟨"s", "c", "l", "2024-02-01", "", [], 80⟩] ⟨none, ⟨3⟩⟩ =
        [⟨"s", "b", "l", "2024-01-01", "", [], 95⟩,
         ⟨"s", "c", "l", "2024-02-01", "", [], 80⟩,
         ⟨"s", "a", "l", "2024-01-01", "", [], 80⟩] := by
  constructor
  · intro items cfg
    exact ⟨rfl, List.perm_insertionSort item_before items,
      List.sorted_insertionSort item_before items⟩
  · decide

/-- C7: the fingerprint is a pure function of the normalized title and
link, so any whitespace-run or letter-case variation (and nothing else)
leaves it unchanged; the concrete pair of the spec agrees and the changed link
yields a different digest. -/
theorem C7_fingerprint_normalization :
    (∀ t1 t2 l1 l2 : String, normalize_text t1 = normalize_text t2 →
      normalize_text l1 = normalize_text l2 → item_id t1 l1 = item_id t2 l2)
    ∧ (∀ s : String,
        normalize_text (String.mk (s.data.map upperChar)) = normalize_text s)
    ∧ (∀ pre post : List Char,
        normalize_text (String.mk (pre ++ ' ' :: ' ' :: post)) =
          normalize_text (String.mk (pre ++ ' ' :: post)))
    ∧ item_id "Hello  World" "http://x/y" = item_id "hello world" "http://x/y"
    ∧ item_id "Hello  World" "http://x/y" ≠ item_id "Hello World" "http://x/z" := by
  refine ⟨?_, normalize_text_upper, normalize_dup_space, ?_, ?_⟩
  · intro t1 t2 l1 l2 h1 h2
    unfold item_id item_base
    rw [h1, h2]
  · rfl
  · decide

/-- Witness for C7: the normalization-invariance part applied at a
concrete case-and-whitespace variation. -/
theorem C7_witness :
    item_id "APAC  Tender" "http://e/1" = item_id "apac tender" "http://e/1" :=
  C7_fingerprint_normalization.1 "APAC  Tender" "apac tender"
    "http://e/1" "http://e/1" (by decide) (by decide)

/-- C8 counterexample: normalization does not remove '|' from its input,
so the normalized output can contain '|', and two pairs with different
normalized titles and links produce the same pre-hash concatenation. -/
theorem C8_counterexample :
    '|' ∈ (normalize_text "a|b").data
    ∧ item_base "a|b" "c" = item_base "a" "b|c"
    ∧ normalize_text "a|b" ≠ normalize_text "a"
    ∧ normalize_text "c" ≠ normalize_text "b|c" := by
  refine ⟨by decide, by decide, by decide, by decide⟩

/-- C8 as amended: normalization never introduces '|' (a '|'-free input
stays '|'-free), and the pre-hash concatenation is injective on pairs
whose normalized titles are '|'-free. -/
theorem C8_separator_injective_amended :
    (∀ s : String, '|' ∉ s.data → '|' ∉ (normalize_text s).data)
    ∧ (∀ t1 l1 t2 l2 : String, '|' ∉ (normalize_text t1).data →
        '|' ∉ (normalize_text t2).data →
        item_base t1 l1 = item_base t2 l2 →
        normalize_text t1 = normalize_text t2 ∧
          normalize_text l1 = normalize_text l2) := by
  constructor
  · exact fun s => normalize_no_pipe
  · intro t1 l1 t2 l2 h1 h2 heq
    unfold item_base at heq
    have hdata := congrArg String.data heq
    rw [String.data_append, String.data_append, String.data_append,
      String.data_append, List.append_assoc, List.append_assoc] at hdata
    have hsep : ("|" : String).data = ['|'] := rfl
    rw [hsep] at hdata
    simp only [List.singleton_append] at hdata
    obtain ⟨he1, he2⟩ := sep_inj _ _ _ _ h1 h2 hdata
    exact ⟨string_data_inj he1, string_data_inj he2⟩

/-- Witness for the amended C8: '|'-free normalization output on a
'|'-free input, and injectivity applied at concrete equal bases. -/
theorem C8_witness :
    '|' ∉ (normalize_text "Dell RFP 2024").data
    ∧ (normalize_text "Hello  World" = normalize_text "hello world"
       ∧ normalize_text "http://x/y" = normalize_text "http://x/y") :=
  ⟨C8_separator_injective_amended.1 "Dell RFP 2024" (by decide),
   C8_separator_injective_amended.2 "Hello  World" "http://x/y"
     "hello world" "http://x/y" (by decide) (by decide) (by decide)⟩

/-- C9 counterexample: a config whose keywords section lacks both
exclude_any and must_have_any does not raise; it scores the entry as
relevant with the baseline 60, exactly the silent flood the claim says
must not happen. -/
theorem C9_counterexample :
    score_item "general news" ⟨some ⟨none, none, none⟩, ⟨5⟩⟩ =
      Except.ok (true, 60) := rfl

/-- C9 as amended: only a config without the whole keywords section is
fatal (KeyError on first scoring); a keywords section with missing tier
keys silently behaves as if those tiers were empty lists, and with
must_have_any absent every non-excluded text scores relevant (≥ 60). -/
theorem C9_malformed_policy_amended :
    (∀ (text : String) (em : EmailCfg),
      score_item text ⟨none, em⟩ = Except.error "KeyError: keywords")
    ∧ (∀ (text : String) (em : EmailCfg),
        score_item text ⟨some ⟨none, none, none⟩, em⟩ =
          score_item text ⟨some ⟨some [], some [], some []⟩, em⟩)
    ∧ (∀ (text : String) (kw : Keywords) (em : EmailCfg),
        kw.must_have_any = none →
        (kw.exclude_any.getD []).any
          (fun x => inStr (normalize_text x) (normalize_text text)) = false →
        ∃ s, score_item text ⟨some kw, em⟩ = Except.ok (true, s) ∧ 60 ≤ s) := by
  refine ⟨fun text em => rfl, fun text em => rfl, ?_⟩
  intro text kw em hmust hex
  simp only [score_item, hmust, hex, Option.getD_none, List.isEmpty_nil,
    Bool.not_true, Bool.false_and, Bool.false_eq_true, if_false]
  refine ⟨_, rfl, ?_⟩
  omega

/-- Witness for the amended C9 at concrete inputs. -/
theorem C9_witness :
    ∃ s, score_item "quarterly results"
        ⟨some ⟨some ["spam"], none, some ["cloud"]⟩, ⟨5⟩⟩ =
      Except.ok (true, s) ∧ 60 ≤ s :=
  C9_malformed_policy_amended.2.2 "quarterly results"
    ⟨some ["spam"], none, some ["cloud"]⟩ ⟨5⟩ rfl (by decide)

/-- C1: a run that succeeded marks every relevant unseen entry, so an
immediately repeated run over the same entries with the resulting ledger
emits no items and leaves the ledger unchanged. -/
theorem C1_dedup_across_runs :
    ∀ (src : Source) (entries : List Entry) (cfg : Config)
      (oracle : DateOracle) (now now' : String) (db : Ledger)
      (items : List Item) (db' : Ledger),
      fetch_rss_source src entries cfg oracle now db = Except.ok (items, db') →
      fetch_rss_source src entries cfg oracle now' db' = Except.ok ([], db') := by
  intro src entries cfg oracle now now' db items db' h
  unfold fetch_rss_source at *
  apply fetch_go_skip
  intro e he
  obtain ⟨ks, hok⟩ := fetch_go_scores_ok src cfg oracle now _ _ _ _ h e he
  refine ⟨ks, hok, ?_⟩
  obtain ⟨keep, sc⟩ := ks
  cases hk : keep
  · exact Or.inl rfl
  · right
    rw [hk] at hok
    exact fetch_go_marks src cfg oracle now _ _ _ _ h e he sc hok

set_option maxRecDepth 8000 in
/-- Witness for C1: the concrete two-entry run, repeated with the ledger
it produced, yields zero items. -/
theorem C1_witness :
    fetch_rss_source exSrc [exE1, exE2] exCfg exOracle "t1" exOut.2 =
      Except.ok ([], exOut.2) :=
  C1_dedup_across_runs exSrc [exE1, exE2] exCfg exOracle "t0" "t1" []
    exOut.1 exOut.2 rfl

set_option maxRecDepth 8000 in
/-- C3: in a successful run every entry scored relevant has its
fingerprint in the final ledger, independently of the later sort and
max_items truncation; concretely, the two-entry run with max_items = 1
marks both fingerprints while the digest shows one item. -/
theorem C3_truncation_still_marks :
    (∀ (src : Source) (entries : List Entry) (cfg : Config)
      (oracle : DateOracle) (now : String) (db : Ledger)
      (items : List Item) (db' : Ledger),
      fetch_rss_source src entries cfg oracle now db = Except.ok (items, db') →
      ∀ e ∈ entries.take 200, ∀ sc,
        score_item (entry_blob e) cfg = Except.ok (true, sc) →
        already_seen db' (entry_iid e) = true)
    ∧ (exRun1 = Except.ok (exOut.1, exOut.2)
       ∧ exOut.1.length = 2
       ∧ already_seen exOut.2 (entry_iid exE1) = true
       ∧ already_seen exOut.2 (entry_iid exE2) = true
       ∧ (items_sorted exOut.1 exCfg).length = 1) := by
  constructor
  · intro src entries cfg oracle now db items db' h e he sc hsc
    exact fetch_go_marks src cfg oracle now _ _ _ _ h e he sc hsc
  · exact ⟨rfl, rfl, rfl, rfl, rfl⟩

/-- Witness for C3, applying the marking part to the first concrete
entry of the example run. -/
theorem C3_witness :
    already_seen exOut.2 (entry_iid exE1) = true :=
  C3_truncation_still_marks.1 exSrc [exE1, exE2] exCfg exOracle "t0" []
    exOut.1 exOut.2 rfl exE1 (by decide) 65 rfl

/-- C10: the fingerprint depends only on title and link, so entries that
differ only in summary, description or date fields share it; and a run
started from a ledger containing a fingerprint never emits an item built
from any entry carrying that fingerprint. -/
theorem C10_fingerprint_content_independent :
    (∀ e1 e2 : Entry, e1.title = e2.title → e1.link = e2.link →
      entry_iid e1 = entry_iid e2)
    ∧ (∀ (src : Source) (cfg : Config) (oracle : DateOracle) (now : String)
        (db : Ledger) (entries : List Entry) (items : List Item)
        (db' : Ledger) (e2 : Entry),
        already_seen db (entry_iid e2) = true →
        fetch_rss_source src entries cfg oracle now db = Except.ok (items, db') →
        ∀ it ∈ items, ∃ e ∈ entries.take 200, ∃ sc,
          it = mk_item src oracle e sc ∧ entry_iid e ≠ entry_iid e2) := by
  constructor
  · intro e1 e2 ht hl
    unfold entry_iid entry_title entry_link
    rw [ht, hl]
  · intro src cfg oracle now db entries items db' e2 hseen h it hit
    have hfrom := fetch_go_items_from src cfg oracle now _ _ _ _ h it hit
    rcases hfrom with hin | ⟨e, he, sc, heq, hns, _⟩
    · exact absurd hin (List.not_mem_nil it)
    · refine ⟨e, he, sc, heq, ?_⟩
      intro hiid
      rw [hiid, hseen] at hns
      exact absurd hns (by simp)

set_option maxRecDepth 8000 in
/-- Witness for C10: the edited entry shares the fingerprint of the original,
and a run over it from the post-run ledger emits nothing derived from it. -/
theorem C10_witness :
    entry_iid exE1edit = entry_iid exE1
    ∧ ∀ it ∈ ([] : List Item), ∃ e ∈ [exE1edit].take 200, ∃ sc,
        it = mk_item exSrc exOracle e sc ∧ entry_iid e ≠ entry_iid exE1 :=
  ⟨C10_fingerprint_content_independent.1 exE1edit exE1 rfl rfl,
   C10_fingerprint_content_independent.2 exSrc exCfg exOracle "t2" exOut.2
     [exE1edit] [] exOut.2 exE1 (by decide) rfl⟩

end OppMonitor
